import Mathlib

/-
  Verification of the rust-vendored-qt header-generation pipeline.

  Shallow embedding of the code in qt-cargo-base/src/configure.rs and
  qt-cargo-base/src/lib.rs.  Filesystem paths are modelled as an
  absolute-flag plus a component list (symlink-free model); fallible
  operations (Rust panics via unwrap/expect) are modelled as `Option`,
  where `none` is a hard error that aborts before any further file is
  written.  The filesystem is a list of the existing absolute normalized
  component lists; file writes are collected as `WriteOp` values instead
  of performed.
-/

/-- Model of a Rust `std::path::Path`: an absolute flag plus the raw
components of the path. -/
structure RPath where
  absolute : Bool
  comps : List String
deriving DecidableEq

/-- Rust `Path::is_relative`. -/
def RPath.is_relative (p : RPath) : Bool := !p.absolute

/-- Rust `Path::join` / `PathBuf::push`: if the second path is absolute it
replaces the first, otherwise the components are appended. -/
def RPath.join (p q : RPath) : RPath :=
  if q.absolute then q else RPath.mk p.absolute (p.comps ++ q.comps)

/-- Rust `Path::components()`: interior `.` components are dropped. -/
def RPath.components (p : RPath) : List String :=
  p.comps.filter (fun c => c != ".")

/-- Rust `Path::file_name`: the last component, `none` when the path is a
root, is empty, or ends in `..`. -/
def RPath.file_name (p : RPath) : Option String :=
  match p.components.getLast? with
  | none => none
  | some c => if c = ".." then none else some c

/-- Rust `Path::parent`: drop the last component; `none` for a root or an
empty path. -/
def RPath.parent (p : RPath) : Option RPath :=
  match p.components with
  | [] => none
  | c :: cs => some (RPath.mk p.absolute ((c :: cs).dropLast))

/-- Rust `Path::to_str` of a unix path built from components, as embedded in
the generated include statement (forward-slash separators). -/
def rpathToString (p : RPath) : String :=
  (if p.absolute then "/" else "") ++ String.intercalate "/" p.comps

/-- One step of path normalization: `.` is dropped, `..` pops the previous
component (and is dropped at the root), a normal component is pushed.
The accumulator holds the already-normalized components in reverse. -/
def normStep (acc : List String) (c : String) : List String :=
  if c = "." then acc
  else if c = ".." then acc.tail
  else c :: acc

/-- Normalize the components of an absolute path (resolve `.` and `..`). -/
def normalizeComps (cs : List String) : List String :=
  (cs.foldl normStep []).reverse

/-- Model of Rust `fs::canonicalize` on a symlink-free filesystem `fs`
(the list of existing absolute normalized component lists): a relative
path is resolved against the current working directory `cwd`, the result
is normalized, and the call fails when the target does not exist. -/
def canonicalize (fs : List (List String)) (cwd p : RPath) : Option RPath :=
  let a := if p.absolute then p else cwd.join p
  let n := normalizeComps a.components
  if n ∈ fs then some (RPath.mk true n) else none

/-- The tail of the `pathdiff::diff_paths` loop once the target components
are exhausted: every remaining base component contributes one `..`. -/
def diffFill (comps : List String) : List String → List String
  | [] => comps
  | _ :: rb => diffFill (comps ++ [".."]) rb

/-- The loop of `pathdiff::diff_paths` (crate pathdiff), on the component
lists of the target path (`ita`) and base path (`itb`), with the
accumulated result components in `comps`.  Once `ita` is exhausted the
loop only ever appends `..` per remaining base component, which is
`diffFill`. -/
def diffLoop (comps : List String) : List String → List String → Option (List String)
  | [], [] => some comps
  | a :: ra, [] => some (comps ++ a :: ra)
  | [], _ :: rb => some (diffFill (comps ++ [".."]) rb)
  | a :: ra, b :: rb =>
    if comps.isEmpty && a == b then diffLoop comps ra rb
    else if b == "." then diffLoop (comps ++ [a]) ra rb
    else if b == ".." then none
    else some ((comps ++ [".."]) ++ rb.map (fun _ => "..") ++ a :: ra)

/-- `pathdiff::diff_paths(path, base)`: the relative path from `base` to
`path`; `Some(path)` when `path` is absolute but `base` is not, `None`
when `path` is relative but `base` is absolute. -/
def diff_paths (path base : RPath) : Option RPath :=
  if path.absolute != base.absolute then
    if path.absolute then some path else none
  else
    (diffLoop [] path.components base.components).map (fun cs => RPath.mk false cs)

/-- The target-resolution step of `write_forwarding_header_2`
(configure.rs lines 171-179) and of `QtModuleBuilder::write_forwarding_header`
(lib.rs lines 279-287): a relative target is kept (and so canonicalized
against the current directory), an absolute target is joined onto the
current directory (which, by `join`, leaves it unchanged), then the result
is canonicalized; `none` models the `.unwrap()` panic. -/
def resolve_target (fs : List (List String)) (cwd target : RPath) : Option RPath :=
  canonicalize fs cwd (if target.is_relative then target else cwd.join target)

/-- A file write performed by the generator: destination path and full
file content. -/
structure WriteOp where
  path : RPath
  content : String
deriving DecidableEq

/-- configure.rs `write_forwarding_header_2`: canonicalize the target,
diff it against the parent of the forwarding-header path, and write one
`#include "<relative path>"` line; `none` models the panics
(`unwrap` on canonicalize / parent, `expect` on diff_paths). -/
def write_forwarding_header_2 (fs : List (List String)) (cwd fwd target : RPath) :
    Option WriteOp :=
  match resolve_target fs cwd target with
  | none => none
  | some canon =>
    match fwd.parent with
    | none => none
    | some base =>
      match diff_paths canon base with
      | none => none
      | some rel => some (WriteOp.mk fwd ("#include \"" ++ rpathToString rel ++ "\"\n"))

/-- configure.rs `write_forwarding_header`: the forwarding header file name
is the target's file name; when the target has no file name the header is
silently skipped (`if let Some(file_name) = ...`), modelled as `some []`. -/
def write_forwarding_header (fs : List (List String)) (cwd dest target : RPath) :
    Option (List WriteOp) :=
  match target.file_name with
  | none => some []
  | some file_name =>
    (write_forwarding_header_2 fs cwd (dest.join (RPath.mk false [file_name])) target).map
      (fun w => [w])

/-- lib.rs `QtModuleBuilder::write_forwarding_header`: same skip-on-no-file-name
guard, but the relative include path is diffed against `destination_path`
itself rather than the parent of the forwarding-header path. -/
def QtModuleBuilder.write_forwarding_header (fs : List (List String))
    (cwd destination_path target : RPath) : Option (List WriteOp) :=
  match target.file_name with
  | none => some []
  | some file_name =>
    let forwarding_header_path := destination_path.join (RPath.mk false [file_name])
    match resolve_target fs cwd target with
    | none => none
    | some canon =>
      match diff_paths canon destination_path with
      | none => none
      | some rel =>
        some [WriteOp.mk forwarding_header_path
          ("#include \"" ++ rpathToString rel ++ "\"\n")]

/-- lib.rs `QtModuleBuilder::write_forwarding_headers`: one forwarding
header per entry of `headers`, aborting on the first failure. -/
def write_forwarding_headers (fs : List (List String)) (cwd path : RPath)
    (headers : List RPath) : Option (List WriteOp) :=
  List.foldlM
    (fun acc h => (QtModuleBuilder.write_forwarding_header fs cwd path h).map
      (fun ws => acc ++ ws))
    [] headers

/-- Rust `str::split_whitespace` on a character list: whitespace-delimited
tokens, empty tokens discarded.  `cur` holds the current token reversed. -/
def split_whitespace_chars (cur : List Char) : List Char → List (List Char)
  | [] => if cur.isEmpty then [] else [cur.reverse]
  | c :: rest =>
    if c.isWhitespace then
      if cur.isEmpty then split_whitespace_chars [] rest
      else cur.reverse :: split_whitespace_chars [] rest
    else split_whitespace_chars (c :: cur) rest

/-- Rust `str::split_whitespace` as used by `write_class_forwarding_header`. -/
def split_whitespace (s : String) : List String :=
  (split_whitespace_chars [] s.data).map String.mk

/-- configure.rs `is_qt_class` (lines 235-243): the token starts with the
literal `Q` and contains none of `; : # _ < >`. -/
def is_qt_class (token : String) : Bool :=
  (match token.data with
   | c :: _ => c == 'Q'
   | [] => false)
  && !token.data.contains ';'
  && !token.data.contains ':'
  && !token.data.contains '#'
  && !token.data.contains '_'
  && !token.data.contains '<'
  && !token.data.contains '>'

/-- itertools `tuple_windows::<(_, _, _)>()`: all sliding windows of three
consecutive tokens. -/
def tuple_windows3 : List String → List (String × String × String)
  | a :: b :: c :: rest => (a, b, c) :: tuple_windows3 (b :: c :: rest)
  | _ => []

/-- The scanning part of configure.rs `write_class_forwarding_header`
(lines 245-266): tokenize the header text, slide a 3-token window, and on
`class` emit the second token if it qualifies, else the third if it
qualifies. -/
def scan_qt_classes (text : String) : List String :=
  (tuple_windows3 (split_whitespace text)).filterMap (fun w =>
    if w.1 = "class" then
      if is_qt_class w.2.1 then some w.2.1
      else if is_qt_class w.2.2 then some w.2.2
      else none
    else none)

/-- Boolean prefix test on character lists. -/
def hasPrefixChars : List Char → List Char → Bool
  | [], _ => true
  | _ :: _, [] => false
  | a :: as, b :: bs => a == b && hasPrefixChars as bs

/-- Boolean substring test on character lists, modelling Rust
`str::contains(&str)`. -/
def hasSubstrChars (sub : List Char) : List Char → Bool
  | [] => hasPrefixChars sub []
  | c :: rest => hasPrefixChars sub (c :: rest) || hasSubstrChars sub rest

/-- configure.rs / lib.rs `make_define_string`: one
`#define <KEY> <VALUE>\n` per entry, concatenated in order
(`.map(format!).collect::<String>()`). -/
def make_define_string : List (String × String) → String
  | [] => ""
  | (key, value) :: rest =>
    "#define " ++ key ++ " " ++ value ++ "\n" ++ make_define_string rest

/-- configure.rs / lib.rs `make_feature_defines`: one
`#define QT_FEATURE_<NAME> 1\n` (enabled) or `... -1\n` (disabled) per
entry, concatenated in order. -/
def make_feature_defines : List (String × Bool) → String
  | [] => ""
  | (name, enable) :: rest =>
    "#define QT_FEATURE_" ++ name ++ " " ++ (if enable then "1" else "-1") ++ "\n"
      ++ make_feature_defines rest

/-- The content written by configure.rs `write_config_header` (line 299):
`format!("{}\n{}", make_define_string(defines), make_feature_defines(features))`. -/
def write_config_header_content (defines : List (String × String))
    (features : List (String × Bool)) : String :=
  make_define_string defines ++ "\n" ++ make_feature_defines features

/-- configure.rs `write_config_header`: writes the rendered content to the
given path. -/
def write_config_header (path : RPath) (defines : List (String × String))
    (features : List (String × Bool)) : WriteOp :=
  WriteOp.mk path (write_config_header_content defines features)

/-- The content composed in lib.rs `create_config_headears` (line 212):
`format!("{}\n{}", features_defines, defines)` - features first. -/
def qconfig_content (features : List (String × Bool))
    (defines : List (String × String)) : String :=
  make_feature_defines features ++ "\n" ++ make_define_string defines

/-- lib.rs `QtModuleBuilder` (the `cc::Build` member is the external
compiler-driver collaborator and is not modelled). -/
structure QtModuleBuilder where
  module_name : String
  qt_source_path : RPath
  qt_build_path : RPath
  module_headers : List RPath
  module_sources : List RPath
  global_features_ : List (String × Bool)
  global_private_features_ : List (String × Bool)
  global_defines_ : List (String × String)
  module_features_ : List (String × Bool)
  module_private_features_ : List (String × Bool)
  module_defines_ : List (String × String)
  module_private_defines_ : List (String × String)
  qplatformdefs_ : Option RPath
  build_dir_ : Option RPath

/-- lib.rs `QtModuleBuilder::new`: empty buckets except the three global
buckets, which are seeded from the `features` module (that module's
constant tables are data external to the generation logic, so they are
passed in here). -/
def QtModuleBuilder.new (gd : List (String × String))
    (gf gpf : List (String × Bool)) : QtModuleBuilder :=
  { module_name := ""
    qt_source_path := RPath.mk false ["."]
    qt_build_path := RPath.mk false ["."]
    module_headers := []
    module_sources := []
    global_features_ := gf
    global_private_features_ := gpf
    global_defines_ := gd
    module_features_ := []
    module_private_features_ := []
    module_defines_ := []
    module_private_defines_ := []
    qplatformdefs_ := none
    build_dir_ := none }

/-- lib.rs `QtModuleBuilder::build_path`: stores the build directory. -/
def QtModuleBuilder.build_path (b : QtModuleBuilder) (out_dir : RPath) :
    QtModuleBuilder :=
  { b with build_dir_ := some out_dir }

/-- One feature/define configuration call on the builder (the six public
clear-then-extend setters of lib.rs lines 334-415). -/
inductive ConfigCall where
  | globalFeatures (features : List (String × Bool))
  | globalPrivateFeatures (features : List (String × Bool))
  | moduleFeatures (features : List (String × Bool))
  | modulePrivateFeatures (features : List (String × Bool))
  | globalDefines (defines : List (String × String))
  | moduleDefines (defines : List (String × String))

/-- Apply one setter: each Rust setter does `bucket.clear()` followed by
`bucket.extend(arg)`, i.e. it replaces the bucket with the argument list. -/
def applyCall (b : QtModuleBuilder) : ConfigCall → QtModuleBuilder
  | .globalFeatures fs => { b with global_features_ := fs }
  | .globalPrivateFeatures fs => { b with global_private_features_ := fs }
  | .moduleFeatures fs => { b with module_features_ := fs }
  | .modulePrivateFeatures fs => { b with module_private_features_ := fs }
  | .globalDefines ds => { b with global_defines_ := ds }
  | .moduleDefines ds => { b with module_defines_ := ds }

/-- Apply a sequence of configuration calls in order. -/
def applyCalls (b : QtModuleBuilder) (calls : List ConfigCall) : QtModuleBuilder :=
  calls.foldl applyCall b

/-- The argument of the last call in the list selected by `select`, if any. -/
def lastReplacement {α : Type} (select : ConfigCall → Option α) :
    List ConfigCall → Option α
  | [] => none
  | c :: rest =>
    match lastReplacement select rest with
    | some v => some v
    | none => select c

/-- Selector for `global_features` calls. -/
def selGlobalFeatures : ConfigCall → Option (List (String × Bool))
  | .globalFeatures fs => some fs
  | _ => none

/-- Selector for `global_private_features` calls. -/
def selGlobalPrivateFeatures : ConfigCall → Option (List (String × Bool))
  | .globalPrivateFeatures fs => some fs
  | _ => none

/-- Selector for `module_features` calls. -/
def selModuleFeatures : ConfigCall → Option (List (String × Bool))
  | .moduleFeatures fs => some fs
  | _ => none

/-- Selector for `module_private_features` calls. -/
def selModulePrivateFeatures : ConfigCall → Option (List (String × Bool))
  | .modulePrivateFeatures fs => some fs
  | _ => none

/-- Selector for `global_defines` calls. -/
def selGlobalDefines : ConfigCall → Option (List (String × String))
  | .globalDefines ds => some ds
  | _ => none

/-- Selector for `module_defines` calls. -/
def selModuleDefines : ConfigCall → Option (List (String × String))
  | .moduleDefines ds => some ds
  | _ => none

/-- lib.rs `QtModuleBuilder::create_forwarding_headers`: filename-keyed
forwarding headers for all module headers under `<path>/<module>/`. -/
def create_forwarding_headers (fs : List (List String)) (cwd : RPath)
    (b : QtModuleBuilder) (path : RPath) : Option (List WriteOp) :=
  write_forwarding_headers fs cwd (path.join (RPath.mk false [b.module_name]))
    b.module_headers

/-- lib.rs `QtModuleBuilder::create_private_forwarding_headers`: forwarding
headers for all module headers under `<path>/<module>/private/` (note: the
same full header list as the public variant). -/
def create_private_forwarding_headers (fs : List (List String)) (cwd : RPath)
    (b : QtModuleBuilder) (path : RPath) : Option (List WriteOp) :=
  write_forwarding_headers fs cwd
    ((path.join (RPath.mk false [b.module_name])).join (RPath.mk false ["private"]))
    b.module_headers

/-- lib.rs `QtModuleBuilder::create_config_headears`: qplatformdefs
forwarding header plus the four config headers; feature blocks come first
in the composed contents. -/
def create_config_headears (fs : List (List String)) (cwd : RPath)
    (b : QtModuleBuilder) (path : RPath) : Option (List WriteOp) :=
  let module_path := path.join (RPath.mk false [b.module_name])
  match b.qplatformdefs_ with
  | none => none
  | some qpd =>
    match QtModuleBuilder.write_forwarding_header fs cwd module_path qpd with
    | none => none
    | some ws =>
      let module_private_path := module_path.join (RPath.mk false ["private"])
      let module_lowercase_name := b.module_name.toLower
      some (ws ++
        [WriteOp.mk (module_path.join (RPath.mk false ["qconfig.h"]))
          (qconfig_content b.global_features_ b.global_defines_),
         WriteOp.mk (module_private_path.join (RPath.mk false ["qconfig_p.h"]))
          (make_feature_defines b.global_private_features_),
         WriteOp.mk (module_path.join (RPath.mk false [module_lowercase_name ++ "-config.h"]))
          (qconfig_content b.module_features_ b.module_defines_),
         WriteOp.mk (module_private_path.join (RPath.mk false [module_lowercase_name ++ "-config_p.h"]))
          (qconfig_content b.module_private_features_ b.module_private_defines_)])

/-- lib.rs `QtModuleBuilder::compile`: requires the stored build directory
(`self.build_dir_.as_ref().unwrap()` - `none` models that panic, there is
no OUT_DIR fallback), then writes config headers and the public and
private forwarding headers.  The final `cc::Build` hand-off is the
external collaborator and is not modelled. -/
def QtModuleBuilder.compile (fs : List (List String)) (cwd : RPath)
    (b : QtModuleBuilder) : Option (List WriteOp) :=
  match b.build_dir_ with
  | none => none
  | some build_path =>
    let config_headers_path := build_path.join (RPath.mk false ["config_headers"])
    match create_config_headears fs cwd b config_headers_path with
    | none => none
    | some ws1 =>
      let forwarding_headers_path := build_path.join (RPath.mk false ["forwarding_headers"])
      match create_forwarding_headers fs cwd b forwarding_headers_path with
      | none => none
      | some ws2 =>
        match create_private_forwarding_headers fs cwd b forwarding_headers_path with
        | none => none
        | some ws3 => some (ws1 ++ ws2 ++ ws3)

/-- configure.rs `write_class_forwarding_header`: read the header text
(`read` models `fs::read` plus the UTF-8 check; `none` is the panic), scan
for Qt class names, and write one forwarding header per found class. -/
def write_class_forwarding_header (fs : List (List String))
    (read : RPath → Option String) (cwd destination_path target : RPath) :
    Option (List WriteOp) :=
  match read target with
  | none => none
  | some text =>
    List.foldlM
      (fun acc cls => (write_forwarding_header_2 fs cwd
          (destination_path.join (RPath.mk false [cls])) target).map
        (fun w => acc ++ [w]))
      [] (scan_qt_classes text)

/-- configure.rs `write_all_forwarding_headers`, with the glob result
passed in as `header_paths` (the tree walker is the external collaborator):
headers whose file name contains `_p.h` go under `<dest>/private/`, all
others get a filename forwarding header and class forwarding headers
under `<dest>/`. -/
def write_all_forwarding_headers (fs : List (List String))
    (read : RPath → Option String) (cwd : RPath) (header_paths : List RPath)
    (destination_path : RPath) : Option (List WriteOp) :=
  let destination_private_path := destination_path.join (RPath.mk false ["private"])
  List.foldlM
    (fun acc header_path =>
      match header_path.file_name with
      | none => none
      | some fname =>
        if hasSubstrChars "_p.h".data fname.data then
          (write_forwarding_header fs cwd destination_private_path header_path).map
            (fun ws => acc ++ ws)
        else
          match write_forwarding_header fs cwd destination_path header_path with
          | none => none
          | some ws1 =>
            (write_class_forwarding_header fs read cwd destination_path header_path).map
              (fun ws2 => acc ++ ws1 ++ ws2))
    [] header_paths

/-- Splitting a character list at newline characters; the final (possibly
empty) segment is always included, so a text ending in a newline yields a
trailing empty segment and a text without a final newline does not. -/
def splitLines : List Char → List (List Char)
  | [] => [[]]
  | c :: rest =>
    if c = '\n' then [] :: splitLines rest
    else
      match splitLines rest with
      | l :: ls => (c :: l) :: ls
      | [] => [[c]]

/-- The characters of one rendered feature line (without the newline). -/
def feature_line (p : String × Bool) : List Char :=
  ("#define QT_FEATURE_" ++ p.1 ++ " " ++ (if p.2 then "1" else "-1")).data

/-- The characters of one rendered define line (without the newline). -/
def define_line (p : String × String) : List Char :=
  ("#define " ++ p.1 ++ " " ++ p.2).data

/-- Concrete builder used when evaluating the code on concrete inputs:
`QtModuleBuilder::new` with empty default tables, module name `QtCore`,
and one non-private module header `/src/foo.h`. -/
def exampleBuilder : QtModuleBuilder :=
  { QtModuleBuilder.new [] [] [] with
    module_name := "QtCore"
    module_headers := [RPath.mk true ["src", "foo.h"]] }

/-- The filesystem for the concrete forwarding-header runs: only
`/src/foo.h` exists. -/
def exampleFs : List (List String) := [["src", "foo.h"]]

/-- The root of the filesystem as a path (a concrete absolute working
directory). -/
def rootPath : RPath := RPath.mk true []

/-- Closed form of the result of the `diff_paths` loop on two component
lists: strip the common prefix, then one `..` per remaining base component
followed by the remaining target components.  (Valid when the base list
has no `.` or `..` components.) -/
def relOf : List String → List String → List String
  | t, [] => t
  | [], _ :: rb => ".." :: relOf [] rb
  | a :: ra, b :: rb =>
    if a = b then relOf ra rb
    else ".." :: (rb.map (fun _ => "..") ++ a :: ra)

/-- `String` append concatenates the underlying character lists. -/
theorem data_append_eq (a b : String) : (a ++ b).data = a.data ++ b.data := rfl

/-- Splitting at newlines after a newline-free segment followed by a
newline peels off exactly that segment. -/
theorem splitLines_append_newline (l rest : List Char) (h : ('\n' : Char) ∉ l) :
    splitLines (l ++ '\n' :: rest) = l :: splitLines rest := by
  induction l with
  | nil => simp [splitLines]
  | cons c cs ih =>
    have hc : ¬ c = '\n' := fun e => h (e ▸ List.mem_cons_self c cs)
    have hcs : ('\n' : Char) ∉ cs := fun m => h (List.mem_cons_of_mem _ m)
    rw [List.cons_append]
    simp only [splitLines, if_neg hc, ih hcs]

/-- After a call sequence, the global-features bucket is the argument of
the last `global_features` call, or the prior contents if there was none. -/
theorem applyCalls_global_features (calls : List ConfigCall) :
    ∀ b : QtModuleBuilder, (applyCalls b calls).global_features_
      = (lastReplacement selGlobalFeatures calls).getD b.global_features_ := by
  induction calls with
  | nil => intro b; rfl
  | cons c cs ih =>
    intro b
    show (applyCalls (applyCall b c) cs).global_features_ = _
    rw [ih]
    cases h : lastReplacement selGlobalFeatures cs with
    | some v => simp [lastReplacement, h]
    | none => cases c <;> simp [lastReplacement, h, applyCall, selGlobalFeatures]

/-- After a call sequence, the global-private-features bucket is the
argument of the last `global_private_features` call, or the prior contents. -/
theorem applyCalls_global_private_features (calls : List ConfigCall) :
    ∀ b : QtModuleBuilder, (applyCalls b calls).global_private_features_
      = (lastReplacement selGlobalPrivateFeatures calls).getD b.global_private_features_ := by
  induction calls with
  | nil => intro b; rfl
  | cons c cs ih =>
    intro b
    show (applyCalls (applyCall b c) cs).global_private_features_ = _
    rw [ih]
    cases h : lastReplacement selGlobalPrivateFeatures cs with
    | some v => simp [lastReplacement, h]
    | none => cases c <;> simp [lastReplacement, h, applyCall, selGlobalPrivateFeatures]

/-- After a call sequence, the module-features bucket is the argument of
the last `module_features` call, or the prior contents. -/
theorem applyCalls_module_features (calls : List ConfigCall) :
    ∀ b : QtModuleBuilder, (applyCalls b calls).module_features_
      = (lastReplacement selModuleFeatures calls).getD b.module_features_ := by
  induction calls with
  | nil => intro b; rfl
  | cons c cs ih =>
    intro b
    show (applyCalls (applyCall b c) cs).module_features_ = _
    rw [ih]
    cases h : lastReplacement selModuleFeatures cs with
    | some v => simp [lastReplacement, h]
    | none => cases c <;> simp [lastReplacement, h, applyCall, selModuleFeatures]

/-- After a call sequence, the module-private-features bucket is the
argument of the last `module_private_features` call, or the prior contents. -/
theorem applyCalls_module_private_features (calls : List ConfigCall) :
    ∀ b : QtModuleBuilder, (applyCalls b calls).module_private_features_
      = (lastReplacement selModulePrivateFeatures calls).getD b.module_private_features_ := by
  induction calls with
  | nil => intro b; rfl
  | cons c cs ih =>
    intro b
    show (applyCalls (applyCall b c) cs).module_private_features_ = _
    rw [ih]
    cases h : lastReplacement selModulePrivateFeatures cs with
    | some v => simp [lastReplacement, h]
    | none => cases c <;> simp [lastReplacement, h, applyCall, selModulePrivateFeatures]

/-- After a call sequence, the global-defines bucket is the argument of
the last `global_defines` call, or the prior contents. -/
theorem applyCalls_global_defines (calls : List ConfigCall) :
    ∀ b : QtModuleBuilder, (applyCalls b calls).global_defines_
      = (lastReplacement selGlobalDefines calls).getD b.global_defines_ := by
  induction calls with
  | nil => intro b; rfl
  | cons c cs ih =>
    intro b
    show (applyCalls (applyCall b c) cs).global_defines_ = _
    rw [ih]
    cases h : lastReplacement selGlobalDefines cs with
    | some v => simp [lastReplacement, h]
    | none => cases c <;> simp [lastReplacement, h, applyCall, selGlobalDefines]

/-- After a call sequence, the module-defines bucket is the argument of
the last `module_defines` call, or the prior contents. -/
theorem applyCalls_module_defines (calls : List ConfigCall) :
    ∀ b : QtModuleBuilder, (applyCalls b calls).module_defines_
      = (lastReplacement selModuleDefines calls).getD b.module_defines_ := by
  induction calls with
  | nil => intro b; rfl
  | cons c cs ih =>
    intro b
    show (applyCalls (applyCall b c) cs).module_defines_ = _
    rw [ih]
    cases h : lastReplacement selModuleDefines cs with
    | some v => simp [lastReplacement, h]
    | none => cases c <;> simp [lastReplacement, h, applyCall, selModuleDefines]

/-- Claim C1, counterexample: scanning `class FOO_EXPORT Widget { };` does
not yield `{Widget}`, and scanning `class Object { };` does not yield
`{Object}` - the qualifier `is_qt_class` requires the name to start with
`Q`, so both scans are empty. -/
theorem c1_counterexample :
    scan_qt_classes "class FOO_EXPORT Widget \x7b \x7d;" ≠ ["Widget"]
    ∧ scan_qt_classes "class Object \x7b \x7d;" ≠ ["Object"] := by decide

/-- Claim C1, amended: scanning a header whose entire text is
`class FOO_EXPORT Widget { };` yields exactly the empty set, and so does
`class Object { };`, because the scanner only emits names beginning with
the `Q` namespace sentinel; the corresponding Q-prefixed headers
`class QWidget { };` and `class FOO_EXPORT QWidget { };` each yield
exactly `{QWidget}`. -/
theorem c1_scan_results :
    scan_qt_classes "class FOO_EXPORT Widget \x7b \x7d;" = []
    ∧ scan_qt_classes "class Object \x7b \x7d;" = []
    ∧ scan_qt_classes "class QWidget \x7b \x7d;" = ["QWidget"]
    ∧ scan_qt_classes "class FOO_EXPORT QWidget \x7b \x7d;" = ["QWidget"] := by decide

/-- Claim C4, counterexample: a single `module_features` call whose
argument repeats the name `A` leaves two entries named `A` in the bucket,
so after that call sequence the bucket does contain two entries with the
same name. -/
theorem c4_counterexample :
    ¬ ((applyCalls (QtModuleBuilder.new [] [] [])
        [ConfigCall.moduleFeatures [("A", true), ("A", false)]]).module_features_.map
          Prod.fst).Nodup := by decide

/-- Claim C4, amended: after any sequence of feature/define configuration
calls, every bucket equals exactly the argument list of the most recent
call that set that bucket (each setter clears the bucket and refills it),
so across calls the last write wins wholesale and earlier names never
linger; duplicates inside the bucket can only come from a single call
whose own argument list repeats a name. -/
theorem c4_bucket_replacement (b : QtModuleBuilder) (calls : List ConfigCall) :
    (applyCalls b calls).global_features_
      = (lastReplacement selGlobalFeatures calls).getD b.global_features_
    ∧ (applyCalls b calls).global_private_features_
      = (lastReplacement selGlobalPrivateFeatures calls).getD b.global_private_features_
    ∧ (applyCalls b calls).module_features_
      = (lastReplacement selModuleFeatures calls).getD b.module_features_
    ∧ (applyCalls b calls).module_private_features_
      = (lastReplacement selModulePrivateFeatures calls).getD b.module_private_features_
    ∧ (applyCalls b calls).global_defines_
      = (lastReplacement selGlobalDefines calls).getD b.global_defines_
    ∧ (applyCalls b calls).module_defines_
      = (lastReplacement selModuleDefines calls).getD b.module_defines_ :=
  ⟨applyCalls_global_features calls b, applyCalls_global_private_features calls b,
   applyCalls_module_features calls b, applyCalls_module_private_features calls b,
   applyCalls_global_defines calls b, applyCalls_module_defines calls b⟩

/-- Claim C9: when the target header path has no file name (it ends in
`..`, or is a filesystem root), both forwarding-header writers return
silently without writing any file and without reporting any error. -/
theorem c9_silent_skip (fs : List (List String)) (cwd dest target : RPath)
    (h : target.file_name = none) :
    write_forwarding_header fs cwd dest target = some []
    ∧ QtModuleBuilder.write_forwarding_header fs cwd dest target = some [] := by
  constructor
  · unfold write_forwarding_header
    rw [h]
  · unfold QtModuleBuilder.write_forwarding_header
    rw [h]

/-- Witness for C9 at the concrete target `/a/..`, which has no file name. -/
theorem c9_witness :
    (RPath.mk true ["a", ".."]).file_name = none
    ∧ write_forwarding_header [] rootPath rootPath (RPath.mk true ["a", ".."]) = some [] :=
  ⟨by decide, (c9_silent_skip [] rootPath rootPath (RPath.mk true ["a", ".."]) (by decide)).1⟩

/-- Claim C10: `compile` aborts (the `unwrap` on the stored build
directory panics) whenever `build_path` has not supplied a build
directory - there is no OUT_DIR fallback in the code - and `build_path`
is exactly the operation that establishes this precondition. -/
theorem c10_compile_requires_build_path (fs : List (List String)) (cwd : RPath)
    (b : QtModuleBuilder) (h : b.build_dir_ = none) :
    QtModuleBuilder.compile fs cwd b = none
    ∧ ∀ p : RPath, (QtModuleBuilder.build_path b p).build_dir_ = some p := by
  constructor
  · unfold QtModuleBuilder.compile
    rw [h]
  · intro p
    rfl

/-- Witness for C10: a freshly constructed builder has no build directory
and its `compile` aborts. -/
theorem c10_witness :
    (QtModuleBuilder.new [] [] []).build_dir_ = none
    ∧ QtModuleBuilder.compile [] rootPath (QtModuleBuilder.new [] [] []) = none :=
  ⟨rfl, (c10_compile_requires_build_path [] rootPath (QtModuleBuilder.new [] [] []) rfl).1⟩

/-- Claim C6: when the target header path cannot be canonicalized (it does
not exist in the filesystem), `write_forwarding_header_2` fails hard
before writing anything, and the `write_forwarding_header` wrapper either
fails the same way or skips without emitting a file - no forwarding header
with a broken include line is ever produced. -/
theorem c6_hard_error (fs : List (List String)) (cwd fwd dest target : RPath)
    (h : resolve_target fs cwd target = none) :
    write_forwarding_header_2 fs cwd fwd target = none
    ∧ (write_forwarding_header fs cwd dest target = none
       ∨ write_forwarding_header fs cwd dest target = some []) := by
  have h2 : ∀ fp : RPath, write_forwarding_header_2 fs cwd fp target = none := by
    intro fp
    unfold write_forwarding_header_2
    rw [h]
  refine ⟨h2 fwd, ?_⟩
  unfold write_forwarding_header
  cases hf : target.file_name with
  | none => exact Or.inr rfl
  | some fn =>
    refine Or.inl ?_
    show Option.map (fun w => [w])
      (write_forwarding_header_2 fs cwd (dest.join (RPath.mk false [fn])) target) = none
    rw [h2]
    rfl

/-- Witness for C6: on an empty filesystem `/missing.h` cannot be
canonicalized, and no file is written. -/
theorem c6_witness :
    resolve_target [] rootPath (RPath.mk true ["missing.h"]) = none
    ∧ write_forwarding_header_2 [] rootPath (RPath.mk true ["dest", "missing.h"])
        (RPath.mk true ["missing.h"]) = none :=
  ⟨by decide, (c6_hard_error [] rootPath (RPath.mk true ["dest", "missing.h"]) rootPath
      (RPath.mk true ["missing.h"]) (by decide)).1⟩

/-- Claim C5: the code's target-resolution step interprets a relative
target header path relative to the process-wide current working directory,
and uses an absolute target header path as-is (its canonicalization equals
canonicalizing the absolute path directly). -/
theorem c5_target_resolution (fs : List (List String)) (cwd target : RPath)
    (hcwd : cwd.absolute = true) :
    (target.is_relative = true →
      resolve_target fs cwd target = canonicalize fs cwd (cwd.join target))
    ∧ (target.is_relative = false →
      resolve_target fs cwd target = canonicalize fs cwd target) := by
  constructor
  · intro hrel
    have habs : target.absolute = false := by
      simpa [RPath.is_relative] using hrel
    simp [resolve_target, canonicalize, RPath.join, hrel, habs, hcwd]
  · intro hrel
    have habs : target.absolute = true := by
      simpa [RPath.is_relative] using hrel
    simp [resolve_target, RPath.join, hrel, habs]

/-- Witness for C5 at a concrete relative target `t.h` under working
directory `/w`, and a concrete absolute target `/w/t.h`. -/
theorem c5_witness :
    (RPath.mk true ["w"]).absolute = true
    ∧ (RPath.mk false ["t.h"]).is_relative = true
    ∧ resolve_target [["w", "t.h"]] (RPath.mk true ["w"]) (RPath.mk false ["t.h"])
        = canonicalize [["w", "t.h"]] (RPath.mk true ["w"])
            ((RPath.mk true ["w"]).join (RPath.mk false ["t.h"]))
    ∧ resolve_target [["w", "t.h"]] (RPath.mk true ["w"]) (RPath.mk true ["w", "t.h"])
        = canonicalize [["w", "t.h"]] (RPath.mk true ["w"]) (RPath.mk true ["w", "t.h"]) :=
  ⟨rfl, rfl,
   (c5_target_resolution [["w", "t.h"]] (RPath.mk true ["w"]) (RPath.mk false ["t.h"]) rfl).1 rfl,
   (c5_target_resolution [["w", "t.h"]] (RPath.mk true ["w"]) (RPath.mk true ["w", "t.h"]) rfl).2 rfl⟩

/-- Claim C3, code evaluated at the failing input: for the builder with the
single non-private module header `/src/foo.h`, the public pass writes the
forwarding header under `<root>/QtCore/`, and the private pass writes a
forwarding header for the very same non-private header under
`<root>/QtCore/private/` - the destination subtrees both receive it, so a
non-private header is not written under the public subtree only. -/
theorem c3_nonprivate_in_both_subtrees :
    create_forwarding_headers exampleFs rootPath exampleBuilder (RPath.mk true ["out", "fwd"])
      = some [WriteOp.mk (RPath.mk true ["out", "fwd", "QtCore", "foo.h"])
          "#include \"../../../src/foo.h\"\n"]
    ∧ create_private_forwarding_headers exampleFs rootPath exampleBuilder
        (RPath.mk true ["out", "fwd"])
      = some [WriteOp.mk (RPath.mk true ["out", "fwd", "QtCore", "private", "foo.h"])
          "#include \"../../../../src/foo.h\"\n"]
    ∧ hasSubstrChars "_p.h".data "foo.h".data = false := by decide

/-- Claim C2, counterexample: at defines `[(A, B)]` and features
`[(F, true)]`, the text rendered by configure.rs `write_config_header` is
not the feature lines followed by a blank line followed by the define
lines - it is the define block first. -/
theorem c2_counterexample :
    (write_config_header (RPath.mk true ["qconfig.h"]) [("A", "B")] [("F", true)]).content
      ≠ make_feature_defines [("F", true)] ++ "\n" ++ make_define_string [("A", "B")] := by
  decide

/-- Rendering a feature list and then any remaining text splits at
newlines into exactly one line per feature entry, in insertion order,
followed by the split of the remaining text. -/
theorem splitLines_feature_block (features : List (String × Bool)) (rest : List Char)
    (hf : ∀ p ∈ features, ('\n' : Char) ∉ p.1.data) :
    splitLines ((make_feature_defines features).data ++ rest)
      = features.map feature_line ++ splitLines rest := by
  induction features with
  | nil => simp [make_feature_defines]
  | cons p ps ih =>
    obtain ⟨name, enable⟩ := p
    have hn : ('\n' : Char) ∉ name.data := hf (name, enable) (List.mem_cons_self _ _)
    have hps : ∀ q ∈ ps, ('\n' : Char) ∉ q.1.data :=
      fun q hq => hf q (List.mem_cons_of_mem _ hq)
    have hdata : (make_feature_defines ((name, enable) :: ps)).data ++ rest
        = feature_line (name, enable) ++ '\n' :: ((make_feature_defines ps).data ++ rest) := by
      cases enable <;>
        simp [make_feature_defines, feature_line, data_append_eq, List.append_assoc]
    have hline : ('\n' : Char) ∉ feature_line (name, enable) := by
      cases enable <;>
        simp [feature_line, data_append_eq, List.mem_append] <;>
        exact hn
    rw [hdata, splitLines_append_newline _ _ hline, ih hps, List.map_cons, List.cons_append]

/-- Rendering a define list and then any remaining text splits at newlines
into exactly one line per define entry, in insertion order, followed by
the split of the remaining text. -/
theorem splitLines_define_block (defines : List (String × String)) (rest : List Char)
    (hd : ∀ p ∈ defines, ('\n' : Char) ∉ p.1.data ∧ ('\n' : Char) ∉ p.2.data) :
    splitLines ((make_define_string defines).data ++ rest)
      = defines.map define_line ++ splitLines rest := by
  induction defines with
  | nil => simp [make_define_string]
  | cons p ps ih =>
    obtain ⟨key, value⟩ := p
    have hk : ('\n' : Char) ∉ key.data := (hd (key, value) (List.mem_cons_self _ _)).1
    have hv : ('\n' : Char) ∉ value.data := (hd (key, value) (List.mem_cons_self _ _)).2
    have hps : ∀ q ∈ ps, ('\n' : Char) ∉ q.1.data ∧ ('\n' : Char) ∉ q.2.data :=
      fun q hq => hd q (List.mem_cons_of_mem _ hq)
    have hdata : (make_define_string ((key, value) :: ps)).data ++ rest
        = define_line (key, value) ++ '\n' :: ((make_define_string ps).data ++ rest) := by
      simp [make_define_string, define_line, data_append_eq, List.append_assoc]
    have hline : ('\n' : Char) ∉ define_line (key, value) := by
      simp [define_line, data_append_eq, List.mem_append]
      exact ⟨hk, hv⟩
    rw [hdata, splitLines_append_newline _ _ hline, ih hps, List.map_cons, List.cons_append]

/-- Claim C2, amended: for every define list and feature list (entries
newline-free), the content composed by lib.rs `create_config_headears`
(`qconfig_content`) is the feature lines first, then a blank line, then
the define lines, each entry newline-terminated with no trailing sentinel
(the final empty segment witnesses the terminating newline of the last
entry); the content rendered by configure.rs `write_config_header` is
instead the define lines first, then a blank line, then the feature lines. -/
theorem c2_header_layout (defines : List (String × String))
    (features : List (String × Bool))
    (hd : ∀ p ∈ defines, ('\n' : Char) ∉ p.1.data ∧ ('\n' : Char) ∉ p.2.data)
    (hf : ∀ p ∈ features, ('\n' : Char) ∉ p.1.data) :
    splitLines (qconfig_content features defines).data
      = features.map feature_line ++ [[]] ++ (defines.map define_line ++ [[]])
    ∧ splitLines (write_config_header_content defines features).data
      = defines.map define_line ++ [[]] ++ (features.map feature_line ++ [[]]) := by
  have hdef : splitLines (make_define_string defines).data
      = defines.map define_line ++ [[]] := by
    have h := splitLines_define_block defines [] hd
    simpa [splitLines] using h
  have hfeat : splitLines (make_feature_defines features).data
      = features.map feature_line ++ [[]] := by
    have h := splitLines_feature_block features [] hf
    simpa [splitLines] using h
  constructor
  · have h1 : (qconfig_content features defines).data
        = (make_feature_defines features).data ++ '\n' :: (make_define_string defines).data := by
      simp [qconfig_content, data_append_eq, List.append_assoc]
    rw [h1, splitLines_feature_block features _ hf]
    simp [splitLines, hdef, List.append_assoc]
  · have h1 : (write_config_header_content defines features).data
        = (make_define_string defines).data ++ '\n' :: (make_feature_defines features).data := by
      simp [write_config_header_content, data_append_eq, List.append_assoc]
    rw [h1, splitLines_define_block defines _ hd]
    simp [splitLines, hfeat, List.append_assoc]

/-- Witness for C2 at defines `[(A, B)]` and features `[(F, true)]`. -/
theorem c2_witness :
    (∀ p ∈ [("A", "B")], ('\n' : Char) ∉ p.1.data ∧ ('\n' : Char) ∉ p.2.data)
    ∧ splitLines (qconfig_content [("F", true)] [("A", "B")]).data
        = [("F", true)].map feature_line ++ [[]] ++ ([("A", "B")].map define_line ++ [[]]) :=
  ⟨by decide, (c2_header_layout [("A", "B")] [("F", true)] (by decide) (by decide)).1⟩

/-- Claim C8: rendering a feature list yields, in insertion order, exactly
one line `#define QT_FEATURE_<NAME> 1` per enabled entry and exactly one
line `#define QT_FEATURE_<NAME> -1` per disabled entry (the final empty
segment witnesses the terminating newline of the last entry), and two
renders of the identical input list are byte-identical. -/
theorem c8_feature_render (features : List (String × Bool))
    (hf : ∀ p ∈ features, ('\n' : Char) ∉ p.1.data) :
    splitLines (make_feature_defines features).data
      = features.map feature_line ++ [[]]
    ∧ ∀ gs : List (String × Bool), gs = features →
        make_feature_defines gs = make_feature_defines features := by
  constructor
  · have h := splitLines_feature_block features [] hf
    simpa [splitLines] using h
  · intro gs h
    rw [h]

/-- Witness for C8 at the concrete feature list `[(FOO, true), (BAR, false)]`. -/
theorem c8_witness :
    (∀ p ∈ [("FOO", true), ("BAR", false)], ('\n' : Char) ∉ p.1.data)
    ∧ splitLines (make_feature_defines [("FOO", true), ("BAR", false)]).data
        = [("FOO", true), ("BAR", false)].map feature_line ++ [[]] :=
  ⟨by decide, (c8_feature_render [("FOO", true), ("BAR", false)] (by decide)).1⟩

/-- `diffFill` appends one `..` per remaining base component. -/
theorem diffFill_eq (rb : List String) :
    ∀ comps : List String, diffFill comps rb = comps ++ rb.map (fun _ => "..") := by
  induction rb with
  | nil => intro comps; simp [diffFill]
  | cons b rb ih =>
    intro comps
    simp [diffFill, ih, List.append_assoc]

/-- On an exhausted target list, `relOf` is one `..` per base component. -/
theorem relOf_nil (b : List String) : relOf [] b = b.map (fun _ => "..") := by
  induction b with
  | nil => rfl
  | cons x rb ih => simp [relOf, ih]

/-- The `diff_paths` loop, started with an empty accumulator against a
base without `.` or `..` components, computes `relOf`. -/
theorem diffLoop_eq_relOf (t : List String) :
    ∀ b : List String, (∀ c ∈ b, c ≠ "." ∧ c ≠ "..") →
      diffLoop [] t b = some (relOf t b) := by
  induction t with
  | nil =>
    intro b hb
    cases b with
    | nil => rfl
    | cons x rb =>
      simp [diffLoop, diffFill_eq, relOf_nil]
  | cons a ra ih =>
    intro b hb
    cases b with
    | nil => simp [diffLoop, relOf]
    | cons x rb =>
      have hx : x ≠ "." ∧ x ≠ ".." := hb x (List.mem_cons_self _ _)
      have hrb : ∀ c ∈ rb, c ≠ "." ∧ c ≠ ".." :=
        fun c hc => hb c (List.mem_cons_of_mem _ hc)
      by_cases hax : a = x
      · simp [diffLoop, relOf, hax, ih rb hrb]
      · simp [diffLoop, relOf, hax, hx.1, hx.2]

/-- `normStep` folding preserves the absence of `.` and `..`. -/
theorem foldl_normStep_allNormal (cs : List String) :
    ∀ acc : List String, (∀ c ∈ acc, c ≠ "." ∧ c ≠ "..") →
      ∀ c ∈ cs.foldl normStep acc, c ≠ "." ∧ c ≠ ".." := by
  induction cs with
  | nil => intro acc hacc; exact hacc
  | cons d ds ih =>
    intro acc hacc
    refine ih (normStep acc d) ?_
    unfold normStep
    by_cases h1 : d = "."
    · simpa [h1] using hacc
    · by_cases h2 : d = ".."
      · simp only [if_neg h1, if_pos h2]
        exact fun c hc => hacc c (List.mem_of_mem_tail hc)
      · simp only [if_neg h1, if_neg h2]
        intro c hc
        rcases List.mem_cons.mp hc with rfl | hc
        · exact ⟨h1, h2⟩
        · exact hacc c hc

/-- The components produced by normalization contain no `.` or `..`. -/
theorem normalizeComps_allNormal (cs : List String) :
    ∀ c ∈ normalizeComps cs, c ≠ "." ∧ c ≠ ".." := by
  intro c hc
  exact foldl_normStep_allNormal cs [] (by simp) c (List.mem_reverse.mp hc)

/-- Folding `normStep` over a list without `.` or `..` pushes every
component. -/
theorem foldl_normStep_of_allNormal (cs : List String)
    (h : ∀ c ∈ cs, c ≠ "." ∧ c ≠ "..") :
    ∀ acc : List String, cs.foldl normStep acc = cs.reverse ++ acc := by
  induction cs with
  | nil => intro acc; rfl
  | cons d ds ih =>
    intro acc
    have hd : d ≠ "." ∧ d ≠ ".." := h d (List.mem_cons_self _ _)
    have hds : ∀ c ∈ ds, c ≠ "." ∧ c ≠ ".." :=
      fun c hc => h c (List.mem_cons_of_mem _ hc)
    show ds.foldl normStep (normStep acc d) = _
    rw [ih hds]
    simp [normStep, hd.1, hd.2, List.append_assoc]

/-- Folding `normStep` over `k` copies of `..` drops `k` entries from the
accumulator. -/
theorem foldl_normStep_parentDirs (k : Nat) :
    ∀ acc : List String, (List.replicate k "..").foldl normStep acc = acc.drop k := by
  induction k with
  | zero => intro acc; rfl
  | succ m ih =>
    intro acc
    show (List.replicate m "..").foldl normStep (normStep acc "..") = _
    rw [ih]
    simp [normStep, List.tail_drop]

/-- A constant-valued map is a replicate. -/
theorem map_parentDirs_eq_replicate (xs : List String) :
    xs.map (fun _ => "..") = List.replicate xs.length ".." := by
  induction xs with
  | nil => rfl
  | cons x l ih => simp [ih, List.replicate_succ]

/-- A block of components without `.` or `..` followed by as many `..`
normalizes away completely. -/
theorem foldl_normStep_cancel (xs : List String)
    (h : ∀ c ∈ xs, c ≠ "." ∧ c ≠ "..") :
    ∀ acc : List String, (xs ++ xs.map (fun _ => "..")).foldl normStep acc = acc := by
  intro acc
  rw [List.foldl_append, foldl_normStep_of_allNormal xs h,
    map_parentDirs_eq_replicate, foldl_normStep_parentDirs]
  rw [List.drop_left' (by simp)]

/-- Against an empty base, `relOf` is the target itself. -/
theorem relOf_base_nil (t : List String) : relOf t [] = t := by
  cases t <;> rfl

/-- Folding `normStep` over the base components followed by the relative
path computed by `relOf` reconstructs exactly the target components. -/
theorem foldl_normStep_relOf (b : List String) :
    ∀ (t acc : List String), (∀ c ∈ b, c ≠ "." ∧ c ≠ "..") →
      (∀ c ∈ t, c ≠ "." ∧ c ≠ "..") →
      (b ++ relOf t b).foldl normStep acc = t.reverse ++ acc := by
  induction b with
  | nil =>
    intro t acc _ ht
    rw [relOf_base_nil, List.nil_append, foldl_normStep_of_allNormal t ht]
  | cons x rb ih =>
    intro t acc hb ht
    have hx : x ≠ "." ∧ x ≠ ".." := hb x (List.mem_cons_self _ _)
    have hrb : ∀ c ∈ rb, c ≠ "." ∧ c ≠ ".." :=
      fun c hc => hb c (List.mem_cons_of_mem _ hc)
    cases t with
    | nil =>
      rw [relOf_nil]
      exact foldl_normStep_cancel (x :: rb) hb acc
    | cons a ra =>
      have hra : ∀ c ∈ ra, c ≠ "." ∧ c ≠ ".." :=
        fun c hc => ht c (List.mem_cons_of_mem _ hc)
      by_cases hax : a = x
      · have hsplit : (x :: rb) ++ relOf (a :: ra) (x :: rb)
            = x :: (rb ++ relOf ra rb) := by
          simp [relOf, hax]
        rw [hsplit]
        show (rb ++ relOf ra rb).foldl normStep (normStep acc x) = _
        have hstep : normStep acc x = x :: acc := by
          simp [normStep, hx.1, hx.2]
        rw [hstep, ih ra (x :: acc) hrb hra]
        simp [hax, List.append_assoc]
      · have hsplit : (x :: rb) ++ relOf (a :: ra) (x :: rb)
            = ((x :: rb) ++ (x :: rb).map (fun _ => "..")) ++ (a :: ra) := by
          simp [relOf, hax, List.append_assoc]
        rw [hsplit, List.foldl_append, foldl_normStep_cancel (x :: rb) hb,
          foldl_normStep_of_allNormal (a :: ra) ht]

/-- A component list without `.` entries is unchanged by the
`components()` filter. -/
theorem filter_ne_dot (cs : List String) (h : ∀ c ∈ cs, c ≠ ".") :
    cs.filter (fun c => c != ".") = cs := by
  refine List.filter_eq_self.mpr ?_
  intro c hc
  simpa using h c hc

/-- `relOf` never produces a `.` component when the target has none. -/
theorem relOf_no_dot (b : List String) :
    ∀ t : List String, (∀ c ∈ t, c ≠ ".") → ∀ c ∈ relOf t b, c ≠ "." := by
  induction b with
  | nil =>
    intro t ht
    rw [relOf_base_nil]
    exact ht
  | cons x rb ih =>
    intro t ht
    cases t with
    | nil =>
      rw [relOf_nil, map_parentDirs_eq_replicate]
      intro c hc
      have hc2 := List.eq_of_mem_replicate hc
      subst hc2
      decide
    | cons a ra =>
      have hra : ∀ c ∈ ra, c ≠ "." := fun c hc => ht c (List.mem_cons_of_mem _ hc)
      by_cases hax : a = x
      · simpa [relOf, hax] using ih ra hra
      · simp only [relOf, if_neg hax]
        intro c hc
        rcases List.mem_cons.mp hc with rfl | hc
        · decide
        · rcases List.mem_append.mp hc with hc | hc
          · rw [map_parentDirs_eq_replicate] at hc
            have hc2 := List.eq_of_mem_replicate hc
            subst hc2
            decide
          · exact ht c hc

/-- The resolution step of the forwarding-header writers is exactly
canonicalization of the target: keeping a relative path and canonicalizing
it, or joining an absolute path onto the working directory (which leaves
it unchanged), both give `canonicalize` of the target itself. -/
theorem resolve_target_eq (fs : List (List String)) (cwd target : RPath) :
    resolve_target fs cwd target = canonicalize fs cwd target := by
  obtain ⟨tabs, tcomps⟩ := target
  cases tabs <;> simp [resolve_target, RPath.is_relative, RPath.join]

/-- The parent of a path whose components end in a last component is the
path of the preceding components. -/
theorem parent_of_components_concat (p : RPath) (cs : List String) (x : String)
    (h : p.components = cs ++ [x]) : p.parent = some (RPath.mk p.absolute cs) := by
  cases cs with
  | nil =>
    unfold RPath.parent
    rw [h]
    simp
  | cons c cs' =>
    unfold RPath.parent
    rw [h]
    have hd : ((c :: cs') ++ [x]).dropLast = c :: cs' := List.dropLast_concat
    exact congrArg (fun l => some (RPath.mk p.absolute l)) hd

/-- Claim C7, amended: for any header P that canonicalizes (exists) and
any absolute, normalized forwarding-header destination directory D (no `.`
or `..` components), the generator emits an include statement whose
embedded relative path, joined onto D and canonicalized, is exactly the
canonicalization of P.  (For a D containing `..` components the purely
textual `diff_paths` can point elsewhere - see the counterexample.) -/
theorem c7_roundtrip (fs : List (List String)) (cwd D P : RPath) (fn : String)
    (hD : D.absolute = true)
    (hDn : ∀ c ∈ D.comps, c ≠ "." ∧ c ≠ "..")
    (hfn : fn ≠ "." ∧ fn ≠ "..")
    (T : RPath) (hP : canonicalize fs cwd P = some T) :
    ∃ rel : RPath, diff_paths T D = some rel
      ∧ write_forwarding_header_2 fs cwd (D.join (RPath.mk false [fn])) P
          = some (WriteOp.mk (D.join (RPath.mk false [fn]))
              ("#include \"" ++ rpathToString rel ++ "\"\n"))
      ∧ canonicalize fs cwd (D.join rel) = canonicalize fs cwd P := by
  obtain ⟨Dabs, Dcomps⟩ := D
  replace hD : Dabs = true := hD
  subst hD
  replace hDn : ∀ c ∈ Dcomps, c ≠ "." ∧ c ≠ ".." := hDn
  have hcanon := hP
  simp only [canonicalize] at hcanon
  set n := normalizeComps ((if P.absolute then P else cwd.join P).components) with hndef
  by_cases hmem : n ∈ fs
  · rw [if_pos hmem] at hcanon
    obtain rfl : T = RPath.mk true n := (Option.some.inj hcanon).symm
    have hTn : ∀ c ∈ n, c ≠ "." ∧ c ≠ ".." := by
      rw [hndef]
      exact normalizeComps_allNormal _
    have hTcomp : (RPath.mk true n).components = n := by
      unfold RPath.components
      exact filter_ne_dot n (fun c hc => (hTn c hc).1)
    have hDcomp : (RPath.mk true Dcomps).components = Dcomps := by
      unfold RPath.components
      exact filter_ne_dot Dcomps (fun c hc => (hDn c hc).1)
    have hdiff : diff_paths (RPath.mk true n) (RPath.mk true Dcomps)
        = some (RPath.mk false (relOf n Dcomps)) := by
      simp [diff_paths, hTcomp, hDcomp, diffLoop_eq_relOf n Dcomps hDn]
    refine ⟨RPath.mk false (relOf n Dcomps), hdiff, ?_, ?_⟩
    · have hjoin : (RPath.mk true Dcomps).join (RPath.mk false [fn])
          = RPath.mk true (Dcomps ++ [fn]) := by
        simp [RPath.join]
      have hcomp2 : (RPath.mk true (Dcomps ++ [fn])).components = Dcomps ++ [fn] := by
        unfold RPath.components
        refine filter_ne_dot _ ?_
        intro c hc
        rcases List.mem_append.mp hc with hc | hc
        · exact (hDn c hc).1
        · have hcf : c = fn := List.mem_singleton.mp hc
          subst hcf
          exact hfn.1
      have hpar : (RPath.mk true (Dcomps ++ [fn])).parent
          = some (RPath.mk true Dcomps) :=
        parent_of_components_concat _ Dcomps fn hcomp2
      simp only [write_forwarding_header_2, resolve_target_eq, hP, hjoin, hpar, hdiff]
    · have hjoin2 : (RPath.mk true Dcomps).join (RPath.mk false (relOf n Dcomps))
          = RPath.mk true (Dcomps ++ relOf n Dcomps) := by
        simp [RPath.join]
      rw [hjoin2, hP]
      have hcomp3 : (RPath.mk true (Dcomps ++ relOf n Dcomps)).components
          = Dcomps ++ relOf n Dcomps := by
        unfold RPath.components
        refine filter_ne_dot _ ?_
        intro c hc
        rcases List.mem_append.mp hc with hc | hc
        · exact (hDn c hc).1
        · exact relOf_no_dot Dcomps n (fun d hd => (hTn d hd).1) c hc
      have hnorm : normalizeComps (Dcomps ++ relOf n Dcomps) = n := by
        unfold normalizeComps
        rw [foldl_normStep_relOf Dcomps n [] hDn hTn]
        simp
      simp [canonicalize, hcomp3, hnorm, hmem]
  · rw [if_neg hmem] at hcanon
    exact absurd hcanon (by simp)

/-- Claim C7, counterexample: with existing paths `/a/b`, `/a/c` and `/c`,
destination directory `D = /a/b/..` and header `P = /a/c`, the generator
writes the forwarding header with include path `../../c`, but joining D
with that embedded relative path and canonicalizing yields `/c`, not the
canonicalization `/a/c` of P - the round trip fails for this D. -/
theorem c7_counterexample :
    canonicalize [["a", "c"], ["c"], ["a", "b"]] rootPath (RPath.mk true ["a", "c"])
      = some (RPath.mk true ["a", "c"])
    ∧ write_forwarding_header_2 [["a", "c"], ["c"], ["a", "b"]] rootPath
        (RPath.mk true ["a", "b", "..", "q.h"]) (RPath.mk true ["a", "c"])
      = some (WriteOp.mk (RPath.mk true ["a", "b", "..", "q.h"])
          "#include \"../../c\"\n")
    ∧ canonicalize [["a", "c"], ["c"], ["a", "b"]] rootPath
        ((RPath.mk true ["a", "b", ".."]).join (RPath.mk false ["..", "..", "c"]))
      ≠ canonicalize [["a", "c"], ["c"], ["a", "b"]] rootPath
          (RPath.mk true ["a", "c"]) := by decide

/-- Witness for C7 at destination `/d`, header `/a/c`, forwarding file
name `q.h`. -/
theorem c7_witness :
    (RPath.mk true ["d"]).absolute = true
    ∧ (∀ c ∈ (RPath.mk true ["d"]).comps, c ≠ "." ∧ c ≠ "..")
    ∧ ("q.h" ≠ "." ∧ "q.h" ≠ "..")
    ∧ canonicalize [["a", "c"]] rootPath (RPath.mk true ["a", "c"])
        = some (RPath.mk true ["a", "c"])
    ∧ (∃ rel : RPath, diff_paths (RPath.mk true ["a", "c"]) (RPath.mk true ["d"]) = some rel
        ∧ write_forwarding_header_2 [["a", "c"]] rootPath
            ((RPath.mk true ["d"]).join (RPath.mk false ["q.h"])) (RPath.mk true ["a", "c"])
            = some (WriteOp.mk ((RPath.mk true ["d"]).join (RPath.mk false ["q.h"]))
                ("#include \"" ++ rpathToString rel ++ "\"\n"))
        ∧ canonicalize [["a", "c"]] rootPath ((RPath.mk true ["d"]).join rel)
            = canonicalize [["a", "c"]] rootPath (RPath.mk true ["a", "c"])) :=
  ⟨rfl, by decide, by decide, by decide,
   c7_roundtrip [["a", "c"]] rootPath (RPath.mk true ["d"]) (RPath.mk true ["a", "c"])
     "q.h" rfl (by decide) (by decide) (RPath.mk true ["a", "c"]) (by decide)⟩
